import Mathlib

/-!
# Verification of `gpytorch/utils/pivoted_cholesky.py`

Shallow embedding of the three functions of the source file —
`pivoted_cholesky`, `woodbury_factor`, `woodbury_solve` — over an
arbitrary linearly ordered field `K` (exact-arithmetic model of the
floating-point code), together with proofs and refutations of the
specification's claims about them.

The embedding mirrors the source line by line:

* tensors become functions `Fin n → K` and `Matrix (Fin k) (Fin n) K`;
* `torch.gather` along the permutation becomes evaluation at
  `perm j`; `torch.scatter_` becomes a left fold of `Function.update`
  over the list of written positions (`scatterUpd`);
* the `while` loop of `pivoted_cholesky` becomes iteration of a guarded
  step function (`pcGStep`); the iteration count `min max_iter n` is an
  upper bound on the number of loop passes, and a pass whose guard fails
  leaves the state unchanged, so iterating `min max_iter n` times is
  exactly the while loop;
* `torch.cholesky` followed by `torch.potrs` (an exact solve of
  `M · R = V` for positive definite `M`) is modelled by the exact
  inverse `M⁻¹ · V`, written with the adjugate so that it is computable;
* the square root is a parameter `sqt : K → K` of the factorization; the
  real-arithmetic instantiation is `K = ℝ`, `sqt = Real.sqrt`, and
  concrete runs that only take square roots of perfect squares can be
  evaluated exactly over `K = ℚ` with `ratSqrt`.
-/

namespace PivotedCholeskySpec

attribute [local semireducible] Rat.mul Rat.add Rat.sub Rat.inv

/-! ## The Woodbury factor / solve pair (`woodbury_factor`, `woodbury_solve`) -/

variable {K : Type} [LinearOrderedField K]

/-- `scale = inv_shift.abs().max()` of the source: the maximum of
`|1 / shift i|` over all entries of the shift vector. -/
def wScale {n : ℕ} [NeZero n] (shift : Fin n → K) : K :=
  Finset.univ.sup' Finset.univ_nonempty fun i => |(shift i)⁻¹|

/-- `inv_shift = shift.reciprocal(); inv_shift = inv_shift.div(scale)`
of the source. -/
def wInvShift {n : ℕ} [NeZero n] (shift : Fin n → K) : Fin n → K :=
  fun i => (shift i)⁻¹ / wScale shift

/-- `shifted_mat` of `woodbury_factor`:
`V @ (inv_shift * V.transpose) + eye(k)/scale`, i.e.
`V · diag(inv_shift) · Vᵗ + I_k / scale`. -/
def woodburyMat {k n : ℕ} [NeZero n] (V : Matrix (Fin k) (Fin n) K)
    (shift : Fin n → K) : Matrix (Fin k) (Fin k) K :=
  V * (Matrix.diagonal (wInvShift shift) * V.transpose) +
    (wScale shift)⁻¹ • (1 : Matrix (Fin k) (Fin k) K)

/-- `woodbury_factor(low_rank_mat, shift)` of the source.  The source
computes the Cholesky factor of `shifted_mat` and then calls
`torch.potrs`, which in exact arithmetic returns the unique solution
`R` of `shifted_mat · R = V` whenever `shifted_mat` is positive
definite.  That solution is `shifted_mat⁻¹ · V`, written here with the
adjugate (`A⁻¹ = det A⁻¹ • adjugate A`) so the definition is
computable.  The half-precision branch of the source performs the same
solve after an upcast, so in exact arithmetic both branches coincide.
The `print` statement of the source has no effect on the result. -/
def woodbury_factor {k n : ℕ} [NeZero n] (V : Matrix (Fin k) (Fin n) K)
    (shift : Fin n → K) : Matrix (Fin k) (Fin n) K :=
  ((woodburyMat V shift).det⁻¹ • (woodburyMat V shift).adjugate) * V

/-- `woodbury_solve(vector, low_rank_mat, woodbury_factor, shift)` of the
source, for a single right-hand-side vector `b`:
`inv_shift ⊙ b`, then `diff = inv_shift ⊙ ((Vᵗ @ R) @ shifted_b)` and
`res = (shifted_b − diff) * scale`. -/
def woodbury_solve {k n : ℕ} [NeZero n] (b : Fin n → K)
    (V : Matrix (Fin k) (Fin n) K) (R : Matrix (Fin k) (Fin n) K)
    (shift : Fin n → K) : Fin n → K :=
  let sb : Fin n → K := fun i => wInvShift shift i * b i
  let df : Fin n → K := fun i =>
    wInvShift shift i * ((V.transpose * R).mulVec sb) i
  fun i => (sb i - df i) * wScale shift

/-- Positive definiteness of a `k × k` matrix over the ordered field
`K`: symmetric, and the associated quadratic form is positive away
from `0`. -/
def IsPosDef {k : ℕ} (M : Matrix (Fin k) (Fin k) K) : Prop :=
  M.transpose = M ∧
    ∀ x : Fin k → K, x ≠ 0 → 0 < Matrix.dotProduct x (M.mulVec x)

lemma IsPosDef.det_ne_zero {k : ℕ} {M : Matrix (Fin k) (Fin k) K}
    (hM : IsPosDef M) : M.det ≠ 0 := by
  intro hdet
  obtain ⟨v, hv, hMv⟩ := (Matrix.exists_mulVec_eq_zero_iff).2 hdet
  have := hM.2 v hv
  rw [hMv] at this
  simp [Matrix.dotProduct] at this

/-- A diagonal matrix with positive diagonal entries is positive
definite. -/
lemma isPosDef_diagonal {k : ℕ} {d : Fin k → K} (hd : ∀ i, 0 < d i) :
    IsPosDef (Matrix.diagonal d) := by
  refine ⟨Matrix.diagonal_transpose d, fun x hx => ?_⟩
  have hne : ∃ i, x i ≠ 0 := by
    by_contra hc
    push_neg at hc
    exact hx (funext hc)
  obtain ⟨i0, hi0⟩ := hne
  have hterm : ∀ i : Fin k,
      x i * (Matrix.diagonal d).mulVec x i = d i * (x i * x i) := by
    intro i
    rw [Matrix.mulVec_diagonal]
    ring
  rw [Matrix.dotProduct]
  refine Finset.sum_pos' (fun i _ => ?_) ⟨i0, Finset.mem_univ i0, ?_⟩
  · rw [hterm i]
    exact mul_nonneg (le_of_lt (hd i)) (mul_self_nonneg _)
  · rw [hterm i0]
    exact mul_pos (hd i0) (mul_self_pos.2 hi0)

lemma wScale_pos {n : ℕ} [NeZero n] {shift : Fin n → K}
    (hs : ∀ i, shift i ≠ 0) : 0 < wScale shift := by
  have i0 : Fin n := ⟨0, Nat.pos_of_ne_zero (NeZero.ne n)⟩
  have h1 : |(shift i0)⁻¹| ≤ wScale shift :=
    Finset.le_sup' (fun i => |(shift i)⁻¹|) (Finset.mem_univ i0)
  have h2 : 0 < |(shift i0)⁻¹| := abs_pos.2 (inv_ne_zero (hs i0))
  exact lt_of_lt_of_le h2 h1

/-- Exact-arithmetic content of the Cholesky-then-`potrs` solve: the
returned factor satisfies `M · R = V`. -/
lemma woodburyMat_mul_factor {k n : ℕ} [NeZero n]
    {V : Matrix (Fin k) (Fin n) K} {shift : Fin n → K}
    (hM : IsPosDef (woodburyMat V shift)) :
    woodburyMat V shift * woodbury_factor V shift = V := by
  have hdet := hM.det_ne_zero
  rw [woodbury_factor, ← Matrix.mul_assoc, Matrix.mul_smul,
    Matrix.mul_adjugate, smul_smul, inv_mul_cancel₀ hdet, one_smul,
    Matrix.one_mul]

/-- C2: For every k×n matrix `V` and every shift vector with all entries
nonzero such that `M = V·diag(inv_shift)·Vᵗ + I_k/scale` is positive
definite (where `scale = max|1/shift|` and `inv_shift = (1/shift)/scale`),
`woodbury_factor(V, shift)` returns a k×n matrix `R` satisfying
`M·R = V`. -/
theorem woodbury_factor_solves {k n : ℕ} [NeZero n]
    (V : Matrix (Fin k) (Fin n) K) (shift : Fin n → K)
    (hs : ∀ i, shift i ≠ 0) (hM : IsPosDef (woodburyMat V shift)) :
    woodburyMat V shift * woodbury_factor V shift = V :=
  woodburyMat_mul_factor hM

/-- The `2 × 3` matrix `[[1,0,0],[0,1,0]]` of the specification's
concrete test case. -/
def Vtest : Matrix (Fin 2) (Fin 3) ℚ := !![1, 0, 0; 0, 1, 0]

/-- Witness for `woodbury_factor_solves` at `V = [[1,0,0],[0,1,0]]`,
`shift = [1,1,1]`, where `woodburyMat = diag(2,2)`. -/
theorem woodbury_factor_solves_witness :
    ((∀ i, (![1, 1, 1] : Fin 3 → ℚ) i ≠ 0) ∧
      IsPosDef (woodburyMat Vtest ![1, 1, 1])) ∧
    woodburyMat Vtest ![1, 1, 1] * woodbury_factor Vtest ![1, 1, 1] =
      Vtest := by
  have hdiag : woodburyMat Vtest ![1, 1, 1] =
      Matrix.diagonal ![(2 : ℚ), 2] := by decide
  have hpd : IsPosDef (woodburyMat Vtest ![1, 1, 1]) := by
    rw [hdiag]
    exact isPosDef_diagonal (by decide)
  exact ⟨⟨by decide, hpd⟩,
    woodbury_factor_solves Vtest ![1, 1, 1] (by decide) hpd⟩

/-- C1: For every k×n matrix `V`, every shift vector with all entries
nonzero, and every compatible right-hand side `b`: if the Woodbury
capacitance matrix `M = V·diag(inv_shift)·Vᵗ + I_k/scale` is positive
definite then `x = woodbury_solve(b, V, woodbury_factor(V, shift), shift)`
satisfies `(diag(shift) + VᵗV)·x = b` in exact arithmetic. -/
theorem woodbury_solve_solves {k n : ℕ} [NeZero n]
    (V : Matrix (Fin k) (Fin n) K) (shift : Fin n → K) (b : Fin n → K)
    (hs : ∀ i, shift i ≠ 0) (hM : IsPosDef (woodburyMat V shift)) :
    (Matrix.diagonal shift + V.transpose * V).mulVec
      (woodbury_solve b V (woodbury_factor V shift) shift) = b := by
  have hs0 : wScale shift ≠ 0 := ne_of_gt (wScale_pos hs)
  have hMR : woodburyMat V shift * woodbury_factor V shift = V :=
    woodburyMat_mul_factor hM
  -- `M · R = V`, in fully right-associated form
  have hMR' : V * (Matrix.diagonal (wInvShift shift) *
        (V.transpose * woodbury_factor V shift)) +
      (wScale shift)⁻¹ • woodbury_factor V shift = V := by
    have h := hMR
    rw [woodburyMat, Matrix.add_mul, Matrix.smul_mul, Matrix.one_mul] at h
    simpa only [Matrix.mul_assoc] using h
  -- `diag(shift) * diag(inv_shift) = scale⁻¹ • 1`
  have hDP : Matrix.diagonal shift * Matrix.diagonal (wInvShift shift) =
      (wScale shift)⁻¹ • (1 : Matrix (Fin n) (Fin n) K) := by
    rw [Matrix.diagonal_mul_diagonal]
    have hfun : (fun i => shift i * wInvShift shift i) =
        ((wScale shift)⁻¹ • fun _ : Fin n => (1 : K)) := by
      funext i
      simp only [wInvShift, Pi.smul_apply, smul_eq_mul, mul_one]
      rw [div_eq_mul_inv, ← mul_assoc, mul_inv_cancel₀ (hs i), one_mul]
    rw [hfun, Matrix.diagonal_smul, Matrix.diagonal_one]
  -- the key cancellation `(D + VᵗV) · P · (Vᵗ · R) = VᵗV`
  have hKey : (Matrix.diagonal shift + V.transpose * V) *
      Matrix.diagonal (wInvShift shift) *
      (V.transpose * woodbury_factor V shift) = V.transpose * V := by
    rw [Matrix.add_mul (Matrix.diagonal shift) (V.transpose * V), hDP,
      Matrix.add_mul, Matrix.smul_mul, Matrix.one_mul]
    rw [show (wScale shift)⁻¹ • (V.transpose * woodbury_factor V shift) =
        V.transpose * ((wScale shift)⁻¹ • woodbury_factor V shift) from
      (Matrix.mul_smul _ _ _).symm]
    simp only [Matrix.mul_assoc]
    rw [← Matrix.mul_add, add_comm, hMR']
  -- evaluate the solver output as a vector expression
  have hx : woodbury_solve b V (woodbury_factor V shift) shift =
      wScale shift •
        ((Matrix.diagonal (wInvShift shift)).mulVec b -
          (Matrix.diagonal (wInvShift shift)).mulVec
            ((V.transpose * woodbury_factor V shift).mulVec
              ((Matrix.diagonal (wInvShift shift)).mulVec b))) := by
    funext i
    have hPb : (Matrix.diagonal (wInvShift shift)).mulVec b =
        fun j => wInvShift shift j * b j := by
      funext j
      rw [Matrix.mulVec_diagonal]
    show (wInvShift shift i * b i - wInvShift shift i *
        ((V.transpose * woodbury_factor V shift).mulVec
          (fun j => wInvShift shift j * b j)) i) * wScale shift = _
    rw [Pi.smul_apply, Pi.sub_apply, hPb, Matrix.mulVec_diagonal,
      smul_eq_mul, mul_comm]
  rw [hx, Matrix.mulVec_smul, Matrix.mulVec_sub]
  rw [Matrix.mulVec_mulVec, Matrix.mulVec_mulVec, Matrix.mulVec_mulVec,
    hKey]
  rw [Matrix.add_mul (Matrix.diagonal shift) (V.transpose * V), hDP]
  rw [Matrix.add_mulVec, Matrix.smul_mulVec_assoc, Matrix.one_mulVec]
  rw [Matrix.mulVec_mulVec, add_sub_cancel_right, smul_smul,
    mul_inv_cancel₀ hs0, one_smul]

/-- Witness for `woodbury_solve_solves` at the specification's test
case `V = [[1,0,0],[0,1,0]]`, `shift = [1,1,1]`, `b = [2,2,1]`. -/
theorem woodbury_solve_solves_witness :
    ((∀ i, (![1, 1, 1] : Fin 3 → ℚ) i ≠ 0) ∧
      IsPosDef (woodburyMat Vtest ![1, 1, 1])) ∧
    (Matrix.diagonal ![1, 1, 1] + Vtest.transpose * Vtest).mulVec
      (woodbury_solve ![2, 2, 1] Vtest
        (woodbury_factor Vtest ![1, 1, 1]) ![1, 1, 1]) = ![2, 2, 1] := by
  have hdiag : woodburyMat Vtest ![1, 1, 1] =
      Matrix.diagonal ![(2 : ℚ), 2] := by decide
  have hpd : IsPosDef (woodburyMat Vtest ![1, 1, 1]) := by
    rw [hdiag]
    exact isPosDef_diagonal (by decide)
  exact ⟨⟨by decide, hpd⟩,
    woodbury_solve_solves Vtest ![1, 1, 1] ![2, 2, 1] (by decide) hpd⟩

/-- C3: For the concrete inputs `V = [[1,0,0],[0,1,0]]`,
`shift = [1,1,1]`, and `b = [2,2,1]`, the composition
`woodbury_solve(b, V, woodbury_factor(V, shift), shift)` returns
`x = [1,1,1]` (the solution of `diag([2,2,1])·x = b`) exactly. -/
theorem woodbury_solve_concrete :
    woodbury_solve ![2, 2, 1] Vtest (woodbury_factor Vtest ![1, 1, 1])
        ![1, 1, 1] = ![1, 1, 1] ∧
    (Matrix.diagonal ![1, 1, 1] + Vtest.transpose * Vtest) =
      Matrix.diagonal ![2, 2, 1] := by
  exact ⟨by decide, by decide⟩

/-! ## The pivoted partial Cholesky factorization (`pivoted_cholesky`)

The loop state of the source: the permutation array, the working
diagonal `matrix_diag`, the rows of `L` computed so far (each row is
written into `L` in original column order through `scatter_` along the
permutation), and the `errors` value.  A single batch element is
modelled; the batch dimension of the source is an elementwise `map`
over independent copies of this state. -/

structure PCState (K : Type) (n : ℕ) where
  perm : Fin n → Fin n
  dg : Fin n → K
  rows : List (Fin n → K)
  err : K

/-- The list of permutation positions `[m, n)`, i.e. the index range of
the tensor slice `permutation[..., m:]`. -/
def positions (n m : ℕ) : List (Fin n) := (List.finRange n).drop m

/-- `torch.scatter_(-1, index, src)`: write value `v p` at index `g p`
for each `p` in the list `keys`, left to right, into the array `acc`. -/
def scatterUpd {π ι β : Type} [DecidableEq ι] (keys : List π) (g : π → ι)
    (v : π → β) (acc : ι → β) : ι → β :=
  keys.foldl (fun a p => Function.update a (g p) (v p)) acc

/-- `torch.max` over a list of candidates: returns the first position
attaining the maximum of `f`, scanning `l` with current best `b`. -/
def listArgmax {n : ℕ} (f : Fin n → K) : List (Fin n) → Fin n → Fin n
  | [], b => b
  | j :: l, b => listArgmax f l (if f b < f j then j else b)

/-- Initial loop state of `pivoted_cholesky`: identity permutation,
`matrix_diag` = the diagonal of the input (the dense-tensor
`torch.is_tensor` branch of the source; the `LazyTensor` branch only
changes how the diagonal and rows are obtained), no rows yet, and
`errors = torch.norm(matrix_diag, 1)`. -/
def pcInit {n : ℕ} (A : Matrix (Fin n) (Fin n) K) : PCState K n :=
  ⟨id, fun i => A i i, [],
    ((positions n 0).map fun i => |A i i|).sum⟩

/-- Pivot selection of one iteration (`torch.max(permuted_diags, -1)`):
the position in `[m, n)` whose permuted diagonal value is maximal. -/
def pcMaxPos {n : ℕ} (s : PCState K n) (h : s.rows.length < n) : Fin n :=
  listArgmax (fun j => s.dg (s.perm j))
    (positions n (s.rows.length + 1)) ⟨s.rows.length, h⟩

/-- The permutation after the pivot swap of one iteration: the old
permutation composed with the transposition of positions `m` and the
selected maximum position (`old_pi_m` / `copy_` / `scatter_` lines of
the source). -/
def pcPerm' {n : ℕ} (s : PCState K n) (h : s.rows.length < n) :
    Fin n → Fin n :=
  s.perm ∘ Equiv.swap ⟨s.rows.length, h⟩ (pcMaxPos s h)

/-- `pi_m = permutation[..., m]` after the swap: the pivot index. -/
def pcPiv {n : ℕ} (s : PCState K n) (h : s.rows.length < n) : Fin n :=
  pcPerm' s h ⟨s.rows.length, h⟩

/-- `max_diag_values`: the selected maximal diagonal value. -/
def pcMval {n : ℕ} (s : PCState K n) (h : s.rows.length < n) : K :=
  s.dg (s.perm (pcMaxPos s h))

/-- Row `m` of `L` after `L_m.scatter_(-1, pi_m, sqrt(max_diag_values))`:
zero except at the pivot index, which holds the square root of the
selected diagonal value. -/
def pcLrow0 (sqt : K → K) {n : ℕ} (s : PCState K n)
    (h : s.rows.length < n) : Fin n → K :=
  Function.update (fun _ => 0) (pcPiv s h) (sqt (pcMval s h))

/-- `L_m_new` as a function of the permutation position `j ∈ [m+1, n)`:
`(row[pi_j] − Σ_r L[r, pi_m]·L[r, pi_j]) / L[m, pi_m]`, where `row` is
the pivot row of the input matrix. -/
def pcVpos (sqt : K → K) {n : ℕ} (A : Matrix (Fin n) (Fin n) K)
    (s : PCState K n) (h : s.rows.length < n) : Fin n → K := fun j =>
  (A (pcPiv s h) (pcPerm' s h j) -
    (s.rows.map fun r => r (pcPiv s h) * r (pcPerm' s h j)).sum) /
    pcLrow0 sqt s h (pcPiv s h)

/-- The body of one `while`-loop iteration of `pivoted_cholesky` at
iteration counter `m = s.rows.length` (with `m < n`), mirroring the
source statement by statement: pivot selection and swap, writing
`sqrt(max_diag_value)` at the pivot entry of row `m`, and — only when
`m + 1 < n`, as in the source — scattering `L_m_new` into the row at
the positions `pi_i = permutation[m+1:]`, deflating the diagonal by its
square at those indices, and recomputing `errors` as the L1 norm of the
deflated entries. -/
def pcStepCore (sqt : K → K) {n : ℕ} (A : Matrix (Fin n) (Fin n) K)
    (s : PCState K n) (h : s.rows.length < n) : PCState K n :=
  if s.rows.length + 1 < n then
    let dgNew := scatterUpd (positions n (s.rows.length + 1))
      (pcPerm' s h)
      (fun j => s.dg (pcPerm' s h j) - pcVpos sqt A s h j ^ 2) s.dg
    ⟨pcPerm' s h, dgNew,
      s.rows ++ [scatterUpd (positions n (s.rows.length + 1))
        (pcPerm' s h) (pcVpos sqt A s h) (pcLrow0 sqt s h)],
      ((positions n (s.rows.length + 1)).map
        fun j => |dgNew (pcPerm' s h j)|).sum⟩
  else
    ⟨pcPerm' s h, s.dg, s.rows ++ [pcLrow0 sqt s h], s.err⟩

/-- One unguarded loop iteration; when all `n` columns are already
pivoted the body cannot run (the while guard `m < max_iter ≤ n` of a
real run is then false) and the state is returned unchanged. -/
def pcStep (sqt : K → K) {n : ℕ} (A : Matrix (Fin n) (Fin n) K)
    (s : PCState K n) : PCState K n :=
  if h : s.rows.length < n then pcStepCore sqt A s h else s

/-- One guarded iteration of the `while m < max_iter and
torch.max(errors) > error_tol` loop: run the body if the guard holds,
otherwise leave the state unchanged (the loop has exited). -/
def pcGStep (sqt : K → K) {n : ℕ} (A : Matrix (Fin n) (Fin n) K)
    (maxIter : ℕ) (tol : K) (s : PCState K n) : PCState K n :=
  if s.rows.length < maxIter ∧ tol < s.err then pcStep sqt A s else s

/-- The state after `t` guarded iterations from the initial state.  A
state whose guard has failed is a fixed point of `pcGStep`, so for
`t ≥` the number of iterations the while loop actually performs this is
the loop's final state. -/
def pcRun (sqt : K → K) {n : ℕ} (A : Matrix (Fin n) (Fin n) K)
    (maxIter : ℕ) (tol : K) (t : ℕ) : PCState K n :=
  (pcGStep sqt A maxIter tol)^[t] (pcInit A)

/-- `pivoted_cholesky(matrix, max_iter, error_tol)` of the source for a
single batch element: clamp `max_iter` to `n`, run the while loop (at
most `min max_iter n` guarded iterations can fire), and return the
computed rows `L[..., :m, :]`. -/
def pivoted_cholesky (sqt : K → K) {n : ℕ}
    (A : Matrix (Fin n) (Fin n) K) (maxIter : ℕ) (tol : K) :
    List (Fin n → K) :=
  (pcRun sqt A (min maxIter n) tol (min maxIter n)).rows

/-- The Gram matrix `LᵗL` of a list of factor rows:
`(LᵗL)ᵢⱼ = Σ_r L[r,i]·L[r,j]`. -/
def gram {n : ℕ} (rows : List (Fin n → K)) : Matrix (Fin n) (Fin n) K :=
  Matrix.of fun i j => (rows.map fun r => r i * r j).sum

/-- The residual `A − LᵗL` of a loop state. -/
def resid {n : ℕ} (A : Matrix (Fin n) (Fin n) K) (s : PCState K n) :
    Matrix (Fin n) (Fin n) K :=
  A - gram s.rows

/-- Floor integer square root, by bounded search (structural recursion
only, so that concrete runs reduce inside the kernel). -/
def natSqrt (n : ℕ) : ℕ :=
  ((List.range (n + 1)).filter fun k => k * k ≤ n).foldr max 0

/-- Exact-arithmetic square root on `ℚ`, exact on ratios of perfect
squares (every concrete run below only takes square roots of such
numbers, so on those runs it agrees with the real square root) and
`0` on negatives. -/
def ratSqrt (q : ℚ) : ℚ := (natSqrt q.num.toNat : ℚ) / (natSqrt q.den : ℚ)

/-! ## Basic properties of the loop building blocks -/

lemma mem_positions {n m : ℕ} {j : Fin n} :
    j ∈ positions n m ↔ m ≤ (j : ℕ) := by
  constructor
  · intro hj
    rw [positions, List.mem_iff_getElem] at hj
    obtain ⟨i, hi, hij⟩ := hj
    rw [List.getElem_drop, List.getElem_finRange] at hij
    have : (j : ℕ) = m + i := by rw [← hij]; simp
    omega
  · intro hm
    rw [positions, List.mem_iff_getElem]
    have hl : (j : ℕ) - m < ((List.finRange n).drop m).length := by
      simp only [List.length_drop, List.length_finRange]
      omega
    refine ⟨(j : ℕ) - m, hl, ?_⟩
    rw [List.getElem_drop, List.getElem_finRange]
    apply Fin.ext
    simp only [Fin.coe_cast]
    omega

lemma nodup_positions {n m : ℕ} : (positions n m).Nodup :=
  (List.drop_sublist m (List.finRange n)).nodup (List.nodup_finRange n)

lemma positions_toFinset {n m : ℕ} :
    (positions n m).toFinset =
      Finset.univ.filter fun j : Fin n => m ≤ (j : ℕ) := by
  ext j
  simp [List.mem_toFinset, mem_positions]

lemma positions_sum {β : Type} [AddCommMonoid β] {n m : ℕ}
    (f : Fin n → β) :
    ((positions n m).map f).sum =
      ∑ j ∈ Finset.univ.filter (fun j : Fin n => m ≤ (j : ℕ)), f j := by
  rw [← positions_toFinset, List.sum_toFinset f nodup_positions]

lemma scatterUpd_of_forall_ne {π ι β : Type} [DecidableEq ι]
    {keys : List π} {g : π → ι} {v : π → β} {acc : ι → β} {i : ι}
    (hi : ∀ p ∈ keys, g p ≠ i) : scatterUpd keys g v acc i = acc i := by
  induction keys generalizing acc with
  | nil => rfl
  | cons q l ih =>
    show scatterUpd l g v (Function.update acc (g q) (v q)) i = acc i
    rw [ih fun p hp => hi p (List.mem_cons_of_mem q hp)]
    have hq : g q ≠ i := hi q (List.mem_cons_self q l)
    exact Function.update_noteq (Ne.symm hq) (v q) acc

lemma scatterUpd_of_mem {π ι β : Type} [DecidableEq ι]
    {keys : List π} {g : π → ι} {v : π → β} {acc : ι → β}
    (hnd : keys.Nodup)
    (hinj : ∀ a ∈ keys, ∀ b ∈ keys, g a = g b → a = b)
    {p : π} (hp : p ∈ keys) : scatterUpd keys g v acc (g p) = v p := by
  induction keys generalizing acc with
  | nil => cases hp
  | cons q l ih =>
    rw [List.nodup_cons] at hnd
    rcases List.mem_cons.1 hp with rfl | hpl
    · show scatterUpd l g v (Function.update acc (g p) (v p)) (g p) = v p
      rw [scatterUpd_of_forall_ne (fun r hr hgr => ?_)]
      · exact Function.update_same (g p) (v p) acc
      · have : r = p := hinj r (List.mem_cons_of_mem p hr) p
          (List.mem_cons_self p l) hgr
        exact hnd.1 (this ▸ hr)
    · show scatterUpd l g v (Function.update acc (g q) (v q)) (g p) = v p
      exact ih hnd.2 (fun a ha b hb hab => hinj a
        (List.mem_cons_of_mem q ha) b (List.mem_cons_of_mem q hb) hab) hpl

lemma listArgmax_eq_or_mem {n : ℕ} (f : Fin n → K) (l : List (Fin n))
    (b : Fin n) : listArgmax f l b = b ∨ listArgmax f l b ∈ l := by
  induction l generalizing b with
  | nil => exact Or.inl rfl
  | cons j l ih =>
    have hstep : listArgmax f (j :: l) b =
        listArgmax f l (if f b < f j then j else b) := rfl
    rw [hstep]
    rcases ih (if f b < f j then j else b) with h | h
    · rw [h]
      by_cases hc : f b < f j
      · exact Or.inr (by rw [if_pos hc]; exact List.mem_cons_self j l)
      · exact Or.inl (by rw [if_neg hc])
    · exact Or.inr (List.mem_cons_of_mem j h)

lemma le_listArgmax_init {n : ℕ} (f : Fin n → K) (l : List (Fin n))
    (b : Fin n) : f b ≤ f (listArgmax f l b) := by
  induction l generalizing b with
  | nil => exact le_refl _
  | cons j l ih =>
    show f b ≤ f (listArgmax f l (if f b < f j then j else b))
    refine le_trans ?_ (ih (if f b < f j then j else b))
    by_cases hc : f b < f j
    · rw [if_pos hc]; exact le_of_lt hc
    · rw [if_neg hc]

lemma le_listArgmax_of_mem {n : ℕ} (f : Fin n → K) {l : List (Fin n)}
    (b : Fin n) {j : Fin n} (hj : j ∈ l) :
    f j ≤ f (listArgmax f l b) := by
  induction l generalizing b with
  | nil => cases hj
  | cons q l ih =>
    show f j ≤ f (listArgmax f l (if f b < f q then q else b))
    rcases List.mem_cons.1 hj with rfl | hql
    · refine le_trans ?_ (le_listArgmax_init f l _)
      by_cases hc : f b < f j
      · rw [if_pos hc]
      · rw [if_neg hc]; exact not_lt.1 hc
    · exact ih _ hql

/-- Permutation of the state after one loop body: the old permutation
composed with the transposition of positions `m` and the selected
maximum position. -/
lemma pcStepCore_perm {n : ℕ} (sqt : K → K)
    (A : Matrix (Fin n) (Fin n) K) (s : PCState K n)
    (h : s.rows.length < n) :
    (pcStepCore sqt A s h).perm =
      s.perm ∘ Equiv.swap ⟨s.rows.length, h⟩ (pcMaxPos s h) := by
  simp only [pcStepCore]
  split <;> rfl

lemma pcStep_bij {n : ℕ} (sqt : K → K) (A : Matrix (Fin n) (Fin n) K)
    (s : PCState K n) (hb : Function.Bijective s.perm) :
    Function.Bijective (pcStep sqt A s).perm := by
  rw [pcStep]
  split
  · rw [pcStepCore_perm]
    exact hb.comp (Equiv.bijective _)
  · exact hb

lemma pcRun_bij {n : ℕ} (sqt : K → K) (A : Matrix (Fin n) (Fin n) K)
    (maxIter : ℕ) (tol : K) (t : ℕ) :
    Function.Bijective (pcRun sqt A maxIter tol t).perm := by
  induction t with
  | zero => exact Function.bijective_id
  | succ t ih =>
    rw [pcRun, Function.iterate_succ_apply']
    rw [show (pcGStep sqt A maxIter tol)^[t] (pcInit A) =
      pcRun sqt A maxIter tol t from rfl]
    rw [pcGStep]
    split
    · exact pcStep_bij sqt A _ ih
    · exact ih

/-- Frame property of one loop body: the working diagonal is unchanged
at every index that is not written by the deflation scatter (whose
write positions are `permutation[m+1:]`). -/
lemma pcStepCore_dg_frame {n : ℕ} (sqt : K → K)
    (A : Matrix (Fin n) (Fin n) K) (s : PCState K n)
    (h : s.rows.length < n) (i : Fin n)
    (hi : ∀ p : Fin n, p ∈ positions n (s.rows.length + 1) →
      (s.perm ∘ Equiv.swap ⟨s.rows.length, h⟩ (pcMaxPos s h)) p ≠ i) :
    (pcStepCore sqt A s h).dg i = s.dg i := by
  simp only [pcStepCore]
  split
  · exact scatterUpd_of_forall_ne hi
  · rfl

/-- C7: Throughout every run of `pivoted_cholesky`, the length-`n`
permutation array contains each index `0..n-1` exactly once after each
iteration (it is a bijection of positions to indices); the initial
array is the identity ordering, and every iteration replaces it by its
composition with a transposition of two positions, which preserves the
bijection. -/
theorem pc_perm_always_bijective (sqt : K → K) {n : ℕ}
    (A : Matrix (Fin n) (Fin n) K) (maxIter : ℕ) (tol : K) (t : ℕ) :
    Function.Bijective (pcRun sqt A maxIter tol t).perm ∧
      (pcRun sqt A maxIter tol 0).perm = id :=
  ⟨pcRun_bij sqt A maxIter tol t, rfl⟩

/-- C9: In every iteration of `pivoted_cholesky`, the diagonal-deflation
step modifies the working diagonal only at the indices stored at
permutation positions `[m+1, n)`; for every index stored at a
permutation position `≤ m` the diagonal entry is unchanged by that
iteration. -/
theorem pc_deflation_frame (sqt : K → K) {n : ℕ}
    (A : Matrix (Fin n) (Fin n) K) (maxIter : ℕ) (tol : K) (t : ℕ)
    (j : Fin n)
    (hj : (j : ℕ) ≤ (pcRun sqt A maxIter tol t).rows.length) :
    (pcRun sqt A maxIter tol (t + 1)).dg
        ((pcRun sqt A maxIter tol (t + 1)).perm j) =
      (pcRun sqt A maxIter tol t).dg
        ((pcRun sqt A maxIter tol (t + 1)).perm j) := by
  have hb : Function.Bijective (pcRun sqt A maxIter tol t).perm :=
    pcRun_bij sqt A maxIter tol t
  have hstep : pcRun sqt A maxIter tol (t + 1) =
      pcGStep sqt A maxIter tol (pcRun sqt A maxIter tol t) := by
    rw [pcRun, Function.iterate_succ_apply']
    rfl
  rw [hstep]
  rw [pcGStep]
  split
  · rw [pcStep]
    split
    · rename_i hlt
      apply pcStepCore_dg_frame
      intro p hp hpe
      have hp1 := mem_positions.1 hp
      rw [pcStepCore_perm] at hpe
      have hinj : Function.Injective
          ((pcRun sqt A maxIter tol t).perm ∘
            Equiv.swap ⟨(pcRun sqt A maxIter tol t).rows.length, hlt⟩
              (pcMaxPos (pcRun sqt A maxIter tol t) hlt)) :=
        (hb.comp (Equiv.bijective _)).1
      have hpj : p = j := hinj hpe
      omega
    · rfl
  · rfl

lemma pcRun_succ (sqt : K → K) {n : ℕ} (A : Matrix (Fin n) (Fin n) K)
    (maxIter : ℕ) (tol : K) (t : ℕ) :
    pcRun sqt A maxIter tol (t + 1) =
      pcGStep sqt A maxIter tol (pcRun sqt A maxIter tol t) := by
  rw [pcRun, Function.iterate_succ_apply']
  rfl

/-- Witness for `pc_deflation_frame`: concrete run on `[[4,2],[2,2]]`
at iteration 0, position 0. -/
theorem pc_deflation_frame_witness :
    ((0 : Fin 2) : ℕ) ≤ (pcRun ratSqrt !![(4 : ℚ), 2; 2, 2] 2 0 0).rows.length ∧
    (pcRun ratSqrt !![(4 : ℚ), 2; 2, 2] 2 0 1).dg
        ((pcRun ratSqrt !![(4 : ℚ), 2; 2, 2] 2 0 1).perm 0) =
      (pcRun ratSqrt !![(4 : ℚ), 2; 2, 2] 2 0 0).dg
        ((pcRun ratSqrt !![(4 : ℚ), 2; 2, 2] 2 0 1).perm 0) :=
  ⟨by decide, pc_deflation_frame ratSqrt !![(4 : ℚ), 2; 2, 2] 2 0 0 0
    (by decide)⟩

/-- C5: the code path on a negative selected diagonal.  For the input
matrix `[[-1]]` the loop runs (the initial error is `1 > error_tol`),
the selected maximal diagonal value is `-1 < 0`, and the routine still
returns a 1-row factor: the source contains no check and no raise — in
floating point it silently coerces `sqrt(-1)` to `NaN` — contradicting
the specification's requirement of a `NumericalInstabilityError`. -/
theorem pc_negative_pivot_returns_factor :
    (pcInit (!![-1] : Matrix (Fin 1) (Fin 1) ℚ)).dg
      ((pcInit (!![-1] : Matrix (Fin 1) (Fin 1) ℚ)).perm
        (pcMaxPos (pcInit (!![-1] : Matrix (Fin 1) (Fin 1) ℚ))
          Nat.zero_lt_one)) = -1 ∧
    (pivoted_cholesky ratSqrt !![(-1 : ℚ)] 1 (1 / 1000)).length = 1 :=
  ⟨by decide, by decide⟩

/-- C6 (amended): calling `pivoted_cholesky` with `max_iter = 0`
performs no loop iterations and returns an empty zero-row factor; no
`InvalidArgumentError` is raised — the source defines no argument
check at all.  (A strictly negative `max_iter` is outside this
embedding, whose iteration count is a natural number: there the source
fails earlier, at the negative-size `torch.zeros` allocation of `L`,
with a `RuntimeError` — which is also not the claimed
`InvalidArgumentError`.) -/
theorem pc_max_iter_zero_empty (sqt : K → K) {n : ℕ}
    (A : Matrix (Fin n) (Fin n) K) (tol : K) :
    pivoted_cholesky sqt A 0 tol = [] := by
  rw [pivoted_cholesky, Nat.zero_min]
  rfl

/-- C6 counterexample at a concrete input: with `max_iter = 0` the
routine returns normally (with the empty factor) instead of raising
`InvalidArgumentError`. -/
theorem pc_max_iter_zero_concrete :
    pivoted_cholesky ratSqrt !![(1 : ℚ)] 0 (1 / 1000) = [] := by decide

/-- A symmetric (indefinite) `3 × 3` input on which the error value of
`pivoted_cholesky` increases between consecutive iterations. -/
def A8cex : Matrix (Fin 3) (Fin 3) ℚ := !![4, 0, 2; 0, 1, 2; 2, 2, 0]

/-- C8 counterexample: on the symmetric input `A8cex`, running with
`max_iter = 3`, `error_tol = 1/1000`, the per-batch error value is `2`
after iteration 1 and `5` after iteration 2 — it strictly increases, so
the error is not non-increasing for arbitrary inputs.  (The run only
takes the square roots of `4` and `1`, where `ratSqrt` is exact.) -/
theorem pc_err_increases :
    A8cex.transpose = A8cex ∧
    (pcRun ratSqrt A8cex 3 (1 / 1000) 1).err = 2 ∧
    (pcRun ratSqrt A8cex 3 (1 / 1000) 2).err = 5 ∧
    (pcRun ratSqrt A8cex 3 (1 / 1000) 1).err <
      (pcRun ratSqrt A8cex 3 (1 / 1000) 2).err := by
  have h1 : (pcRun ratSqrt A8cex 3 (1 / 1000) 1).err = 2 := by decide
  have h2 : (pcRun ratSqrt A8cex 3 (1 / 1000) 2).err = 5 := by decide
  refine ⟨by decide, h1, h2, ?_⟩
  rw [h1, h2]
  norm_num

/-- The symmetric PSD matrix `[[0,0],[0,1]]`, on which the computed
permutation is the transposition `[1,0]`. -/
def A4cex : Matrix (Fin 2) (Fin 2) ℚ := !![0, 0; 0, 1]

/-- C4 counterexample: for the symmetric PSD input `A4cex` with
`max_iter = n = 2` and `error_tol = 0`, the returned factor satisfies
`LᵗL = A` directly, but the computed permutation is the transposition
`[1,0]` (an involution, so it equals its own inverse), and applying it
to the columns of `L` breaks the identity: the claim's
"after applying the inverse of the computed permutation" is wrong —
the factor's columns are already in original index order.  (The run
only takes the square roots of `1` and `0`, where `ratSqrt` is
exact.) -/
theorem pc_perm_application_breaks_recovery :
    A4cex.transpose = A4cex ∧
    (∀ x : Fin 2 → ℚ, 0 ≤ Matrix.dotProduct x (A4cex.mulVec x)) ∧
    gram (pcRun ratSqrt A4cex 2 0 2).rows = A4cex ∧
    pivoted_cholesky ratSqrt A4cex 2 0 = (pcRun ratSqrt A4cex 2 0 2).rows ∧
    (pcRun ratSqrt A4cex 2 0 2).perm ∘ (pcRun ratSqrt A4cex 2 0 2).perm
      = id ∧
    gram ((pcRun ratSqrt A4cex 2 0 2).rows.map
        (fun r => fun i => r ((pcRun ratSqrt A4cex 2 0 2).perm i)))
      ≠ A4cex := by
  refine ⟨by decide, ?_, by decide, by decide, by decide, by decide⟩
  intro x
  have h1 : Matrix.dotProduct x (A4cex.mulVec x) = x 1 * x 1 := by
    simp [A4cex, Matrix.dotProduct, Matrix.mulVec, Fin.sum_univ_two]
  rw [h1]
  exact mul_self_nonneg _

/-! ## The residual invariant of the factorization on symmetric PSD
inputs

For a symmetric positive semi-definite input `A`, every loop state `s`
reached by the algorithm satisfies `PCInv A s` below: the permutation
is a bijection, the working diagonal agrees with the diagonal of the
residual `A − LᵗL` at unpivoted indices, the residual is symmetric and
positive semi-definite, its rows at already-pivoted indices vanish, and
the stored error value is the L1 norm of the unpivoted residual
diagonal. -/

lemma entry_symm {n : ℕ} {M : Matrix (Fin n) (Fin n) K}
    (hsym : M.transpose = M) (i j : Fin n) : M i j = M j i := by
  conv_lhs => rw [← hsym]
  rfl

lemma psd_diag_nonneg {n : ℕ} {M : Matrix (Fin n) (Fin n) K}
    (hpsd : ∀ x : Fin n → K, 0 ≤ Matrix.dotProduct x (M.mulVec x))
    (i : Fin n) : 0 ≤ M i i := by
  have h := hpsd (Pi.single i 1)
  rwa [Matrix.mulVec_single, Matrix.single_dotProduct, one_mul,
    mul_one] at h

/-- A symmetric PSD matrix with a zero diagonal entry has a zero
row there. -/
lemma psd_row_zero {n : ℕ} {M : Matrix (Fin n) (Fin n) K}
    (hsym : M.transpose = M)
    (hpsd : ∀ x : Fin n → K, 0 ≤ Matrix.dotProduct x (M.mulVec x))
    {i : Fin n} (hii : M i i = 0) (j : Fin n) : M i j = 0 := by
  by_cases hij : j = i
  · rw [hij, hii]
  by_contra hne
  have key : ∀ t : K, 0 ≤ 2 * t * M i j + M j j := by
    intro t
    have h := hpsd (Pi.single i t + Pi.single j 1)
    have hexp : Matrix.dotProduct (Pi.single i t + Pi.single j 1)
        (M.mulVec (Pi.single i t + Pi.single j 1)) =
        t * (M i i * t + M i j) + (M j i * t + M j j) := by
      rw [Matrix.mulVec_add, Matrix.mulVec_single, Matrix.mulVec_single,
        Matrix.add_dotProduct, Matrix.single_dotProduct,
        Matrix.single_dotProduct]
      simp only [Pi.add_apply, mul_one, one_mul]
    rw [hexp, entry_symm hsym j i, hii] at h
    nlinarith [h]
  have h2 := key (-(M j j + 1) / (2 * M i j))
  have h3 : 2 * (-(M j j + 1) / (2 * M i j)) * M i j = -(M j j + 1) := by
    field_simp
    ring
  rw [h3] at h2
  linarith

/-- Cauchy–Schwarz for the semi-inner product of a symmetric PSD
matrix, in product form (no division):
`0 \u2264 M_pp * (M_pp * x^t M x - ((Mx)_p)^2)`. -/
lemma psd_cs {n : ℕ} {M : Matrix (Fin n) (Fin n) K}
    (hsym : M.transpose = M)
    (hpsd : ∀ x : Fin n → K, 0 ≤ Matrix.dotProduct x (M.mulVec x))
    (p : Fin n) (x : Fin n → K) :
    0 ≤ M p p * (M p p * Matrix.dotProduct x (M.mulVec x) -
      (M.mulVec x) p ^ 2) := by
  have hxMe : Matrix.dotProduct x (M.mulVec (Pi.single p 1)) =
      M.mulVec x p := by
    rw [Matrix.mulVec_single]
    show Matrix.dotProduct x (fun r => M r p * 1) =
      Matrix.dotProduct (fun j => M p j) x
    rw [Matrix.dotProduct, Matrix.dotProduct]
    refine Finset.sum_congr rfl fun r _ => ?_
    rw [mul_one, entry_symm hsym r p, mul_comm]
  have heMx : Matrix.dotProduct (Pi.single p (1 : K)) (M.mulVec x) =
      M.mulVec x p := by
    rw [Matrix.single_dotProduct, one_mul]
  have heMe : Matrix.dotProduct (Pi.single p (1 : K))
      (M.mulVec (Pi.single p 1)) = M p p := by
    rw [Matrix.mulVec_single, Matrix.single_dotProduct, one_mul, mul_one]
  have h := hpsd (M p p • x -
    M.mulVec x p • (Pi.single p 1 : Fin n → K))
  rw [Matrix.mulVec_sub, Matrix.mulVec_smul, Matrix.mulVec_smul,
    Matrix.sub_dotProduct, Matrix.smul_dotProduct,
    Matrix.smul_dotProduct, Matrix.dotProduct_sub,
    Matrix.dotProduct_sub, Matrix.dotProduct_smul,
    Matrix.dotProduct_smul, Matrix.dotProduct_smul,
    Matrix.dotProduct_smul, hxMe, heMx, heMe] at h
  simp only [smul_eq_mul] at h
  nlinarith [h]

lemma gram_append {n : ℕ} (rows : List (Fin n → K)) (r : Fin n → K) :
    gram (rows ++ [r]) =
      gram rows + Matrix.of fun i j => r i * r j := by
  ext i j
  simp [gram, List.map_append, List.sum_append]

lemma dotProduct_outer {n : ℕ} (r : Fin n → K) (x : Fin n → K) :
    Matrix.dotProduct x ((Matrix.of fun i j => r i * r j).mulVec x) =
      Matrix.dotProduct r x ^ 2 := by
  have happ : ∀ i, (Matrix.of fun i j => r i * r j).mulVec x i =
      r i * Matrix.dotProduct r x := by
    intro i
    show Matrix.dotProduct (fun j => r i * r j) x = _
    rw [Matrix.dotProduct, Matrix.dotProduct, Finset.mul_sum]
    exact Finset.sum_congr rfl fun j _ => by ring
  rw [Matrix.dotProduct]
  calc ∑ i, x i * (Matrix.of fun i j => r i * r j).mulVec x i
      = ∑ i, (r i * x i) * Matrix.dotProduct r x := by
        refine Finset.sum_congr rfl fun i _ => ?_
        rw [happ i]; ring
  _ = (∑ i, r i * x i) * Matrix.dotProduct r x := by
        rw [Finset.sum_mul]
  _ = Matrix.dotProduct r x ^ 2 := by
        rw [← Matrix.dotProduct]; ring

/-- The loop invariant on symmetric PSD inputs.  `m` abbreviates
`s.rows.length`, the iteration counter. -/
structure PCInv {n : ℕ} (A : Matrix (Fin n) (Fin n) K)
    (s : PCState K n) : Prop where
  bij : Function.Bijective s.perm
  len_le : s.rows.length ≤ n
  dg_eq : ∀ j : Fin n, s.rows.length ≤ (j : ℕ) →
    s.dg (s.perm j) = resid A s (s.perm j) (s.perm j)
  symm : (resid A s).transpose = resid A s
  psd : ∀ x : Fin n → K, 0 ≤ Matrix.dotProduct x ((resid A s).mulVec x)
  prow : ∀ j : Fin n, (j : ℕ) < s.rows.length →
    ∀ i, resid A s (s.perm j) i = 0
  err_eq : s.rows.length < n →
    s.err = ((positions n s.rows.length).map
      fun j => |s.dg (s.perm j)|).sum

lemma pcInit_inv {n : ℕ} {A : Matrix (Fin n) (Fin n) K}
    (hsym : A.transpose = A)
    (hpsd : ∀ x : Fin n → K, 0 ≤ Matrix.dotProduct x (A.mulVec x)) :
    PCInv A (pcInit A) := by
  have hres : resid A (pcInit A) = A := by
    ext i j
    simp [resid, gram, pcInit]
  constructor
  · exact Function.bijective_id
  · exact Nat.zero_le n
  · intro j _
    rw [hres]
    rfl
  · rw [hres]; exact hsym
  · rw [hres]; exact hpsd
  · intro j hj
    exact absurd hj (by simp [pcInit])
  · intro _
    rfl

lemma pcMaxPos_ge {n : ℕ} (s : PCState K n) (h : s.rows.length < n) :
    s.rows.length ≤ (pcMaxPos s h : ℕ) := by
  rw [pcMaxPos]
  rcases listArgmax_eq_or_mem (fun j => s.dg (s.perm j))
      (positions n (s.rows.length + 1)) ⟨s.rows.length, h⟩ with he | hm
  · rw [he]
  · have := mem_positions.1 hm
    omega

lemma pcMaxPos_max {n : ℕ} (s : PCState K n) (h : s.rows.length < n)
    (j : Fin n) (hj : s.rows.length ≤ (j : ℕ)) :
    s.dg (s.perm j) ≤ s.dg (s.perm (pcMaxPos s h)) := by
  rw [pcMaxPos]
  by_cases hj1 : s.rows.length + 1 ≤ (j : ℕ)
  · exact le_listArgmax_of_mem (fun j => s.dg (s.perm j))
      ⟨s.rows.length, h⟩ (mem_positions.2 hj1)
  · have hje : j = ⟨s.rows.length, h⟩ := Fin.ext (by
      have : ((⟨s.rows.length, h⟩ : Fin n) : ℕ) = s.rows.length := rfl
      omega)
    rw [hje]
    exact le_listArgmax_init (fun j => s.dg (s.perm j)) _ _

lemma swap_pos_ge {n m : ℕ} (h : m < n) (mx : Fin n)
    (hmx : m ≤ (mx : ℕ)) (j : Fin n) (hj : m + 1 ≤ (j : ℕ)) :
    m ≤ ((Equiv.swap ⟨m, h⟩ mx) j : ℕ) := by
  have hmval : ((⟨m, h⟩ : Fin n) : ℕ) = m := rfl
  rcases eq_or_ne j ⟨m, h⟩ with rfl | hne1
  · omega
  · rcases eq_or_ne j mx with rfl | hne2
    · rw [Equiv.swap_apply_right]
    · rw [Equiv.swap_apply_of_ne_of_ne hne1 hne2]
      omega

lemma sqt_cases {sqt : K → K}
    (hsqt : ∀ x : K, 0 ≤ x → sqt x * sqt x = x) {a : K} (ha0 : 0 ≤ a) :
    (0 < a ∧ sqt a ≠ 0) ∨ (a = 0 ∧ sqt a = 0) := by
  rcases eq_or_lt_of_le ha0 with he | hlt
  · subst he
    right
    exact ⟨rfl, mul_self_eq_zero.1 (hsqt 0 (le_refl 0))⟩
  · left
    refine ⟨hlt, fun h0 => ?_⟩
    have hz := hsqt a ha0
    rw [h0, zero_mul] at hz
    exact absurd hz.symm (ne_of_gt hlt)

lemma div_sqt_self {sqt : K → K}
    (hsqt : ∀ x : K, 0 ≤ x → sqt x * sqt x = x) {a : K} (ha0 : 0 ≤ a) :
    a / sqt a = sqt a := by
  rcases sqt_cases hsqt ha0 with ⟨_, hne⟩ | ⟨hz, hsz⟩
  · rw [div_eq_iff hne, hsqt a ha0]
  · rw [hsz, div_zero]

lemma pcStepCore_perm_eq {n : ℕ} (sqt : K → K)
    (A : Matrix (Fin n) (Fin n) K) (s : PCState K n)
    (h : s.rows.length < n) :
    (pcStepCore sqt A s h).perm = pcPerm' s h := by
  simp only [pcStepCore]
  split <;> rfl

lemma pcStepCore_len {n : ℕ} (sqt : K → K)
    (A : Matrix (Fin n) (Fin n) K) (s : PCState K n)
    (h : s.rows.length < n) :
    (pcStepCore sqt A s h).rows.length = s.rows.length + 1 := by
  simp only [pcStepCore]
  split <;> simp

lemma pcPiv_eq {n : ℕ} (s : PCState K n) (h : s.rows.length < n) :
    pcPiv s h = s.perm (pcMaxPos s h) := by
  rw [pcPiv, pcPerm']
  show s.perm (Equiv.swap ⟨s.rows.length, h⟩ (pcMaxPos s h)
    ⟨s.rows.length, h⟩) = _
  rw [Equiv.swap_apply_left]

lemma pcVpos_eq {n : ℕ} (sqt : K → K) (A : Matrix (Fin n) (Fin n) K)
    (s : PCState K n) (h : s.rows.length < n) (j : Fin n) :
    pcVpos sqt A s h j =
      resid A s (pcPiv s h) (pcPerm' s h j) / sqt (pcMval s h) := by
  rw [pcVpos, pcLrow0, Function.update_same]
  rfl

lemma pcMval_eq_resid {n : ℕ} {A : Matrix (Fin n) (Fin n) K}
    {s : PCState K n} (hs : PCInv A s) (h : s.rows.length < n) :
    pcMval s h = resid A s (pcPiv s h) (pcPiv s h) := by
  rw [pcMval, pcPiv_eq]
  exact hs.dg_eq (pcMaxPos s h) (pcMaxPos_ge s h)

lemma pcMval_nonneg {n : ℕ} {A : Matrix (Fin n) (Fin n) K}
    {s : PCState K n} (hs : PCInv A s) (h : s.rows.length < n) :
    0 ≤ pcMval s h := by
  rw [pcMval_eq_resid hs h]
  exact psd_diag_nonneg hs.psd _

/-- The permutation after the swap agrees with the old permutation at
positions strictly below `m`. -/
lemma pcPerm'_lt {n : ℕ} (s : PCState K n) (h : s.rows.length < n)
    (j : Fin n) (hj : (j : ℕ) < s.rows.length) :
    pcPerm' s h j = s.perm j := by
  rw [pcPerm']
  show s.perm (Equiv.swap ⟨s.rows.length, h⟩ (pcMaxPos s h) j) = _
  congr 1
  have hge := pcMaxPos_ge s h
  have hmval : ((⟨s.rows.length, h⟩ : Fin n) : ℕ) = s.rows.length := rfl
  apply Equiv.swap_apply_of_ne_of_ne
  · exact Fin.ne_of_val_ne (by omega)
  · exact Fin.ne_of_val_ne (by omega)

/-- At positions `≥ m+1` (after the swap), the old diagonal still
agrees with the residual diagonal. -/
lemma pc_dg_pm {n : ℕ} {A : Matrix (Fin n) (Fin n) K}
    {s : PCState K n} (hs : PCInv A s) (h : s.rows.length < n)
    (j : Fin n) (hj : s.rows.length + 1 ≤ (j : ℕ)) :
    s.dg (pcPerm' s h j) =
      resid A s (pcPerm' s h j) (pcPerm' s h j) := by
  rw [pcPerm']
  exact hs.dg_eq (Equiv.swap ⟨s.rows.length, h⟩ (pcMaxPos s h) j)
    (swap_pos_ge h (pcMaxPos s h) (pcMaxPos_ge s h) j hj)

/-- The row appended by one loop body, in closed form: under the
invariant it is the pivot row of the residual divided by the square
root of the pivot value (at every index). -/
lemma pcStepCore_rows {n : ℕ} {A : Matrix (Fin n) (Fin n) K}
    {sqt : K → K} (hsqt : ∀ x : K, 0 ≤ x → sqt x * sqt x = x)
    {s : PCState K n} (hs : PCInv A s) (h : s.rows.length < n) :
    (pcStepCore sqt A s h).rows = s.rows ++
      [fun i => resid A s (pcPiv s h) i / sqt (pcMval s h)] := by
  have hbij' : Function.Bijective (pcPerm' s h) :=
    hs.bij.comp (Equiv.bijective _)
  have hα0 : 0 ≤ pcMval s h := pcMval_nonneg hs h
  have hmval : ((⟨s.rows.length, h⟩ : Fin n) : ℕ) = s.rows.length := rfl
  -- value of the appended row at `pcPerm' s h j`, by cases on `j`
  have hpt_piv : pcLrow0 sqt s h (pcPiv s h) =
      resid A s (pcPiv s h) (pcPiv s h) / sqt (pcMval s h) := by
    rw [pcLrow0, Function.update_same, ← pcMval_eq_resid hs h]
    exact (div_sqt_self hsqt hα0).symm
  have hpt_lt : ∀ j : Fin n, (j : ℕ) < s.rows.length →
      pcLrow0 sqt s h (pcPerm' s h j) =
        resid A s (pcPiv s h) (pcPerm' s h j) / sqt (pcMval s h) := by
    intro j hj
    have hz : resid A s (pcPiv s h) (pcPerm' s h j) = 0 := by
      rw [pcPerm'_lt s h j hj, entry_symm hs.symm]
      exact hs.prow j hj _
    rw [hz, zero_div, pcLrow0]
    have hne : pcPerm' s h j ≠ pcPiv s h := by
      intro he
      have hj' : j = ⟨s.rows.length, h⟩ := hbij'.1 he
      rw [hj'] at hj
      simp at hj
    rw [Function.update_noteq hne]
  by_cases h2 : s.rows.length + 1 < n
  · simp only [pcStepCore, if_pos h2]
    congr 1
    congr 1
    funext i
    obtain ⟨j, rfl⟩ := hbij'.2 i
    rcases lt_trichotomy (j : ℕ) s.rows.length with hj | hj | hj
    · rw [scatterUpd_of_forall_ne fun p hp he => ?_]
      · exact hpt_lt j hj
      · have hp1 := mem_positions.1 hp
        have hval : (p : ℕ) = (j : ℕ) := by rw [hbij'.1 he]
        omega
    · have hje : j = ⟨s.rows.length, h⟩ := Fin.ext (by omega)
      subst hje
      rw [scatterUpd_of_forall_ne fun p hp he => ?_]
      · exact hpt_piv
      · have hp1 := mem_positions.1 hp
        have hval : (p : ℕ) = s.rows.length := by rw [hbij'.1 he]
        omega
    · rw [scatterUpd_of_mem nodup_positions
        (fun a _ b _ hab => hbij'.1 hab) (mem_positions.2 hj)]
      exact pcVpos_eq sqt A s h j
  · simp only [pcStepCore, if_neg h2]
    congr 1
    congr 1
    funext i
    obtain ⟨j, rfl⟩ := hbij'.2 i
    rcases lt_trichotomy (j : ℕ) s.rows.length with hj | hj | hj
    · exact hpt_lt j hj
    · have hje : j = ⟨s.rows.length, h⟩ := Fin.ext (by omega)
      subst hje
      exact hpt_piv
    · have := j.isLt
      omega

lemma pcStepCore_dg_new {n : ℕ} {A : Matrix (Fin n) (Fin n) K}
    {sqt : K → K} {s : PCState K n}
    (hbij : Function.Bijective s.perm) (h : s.rows.length < n)
    (h2 : s.rows.length + 1 < n) (j : Fin n)
    (hj : s.rows.length + 1 ≤ (j : ℕ)) :
    (pcStepCore sqt A s h).dg (pcPerm' s h j) =
      s.dg (pcPerm' s h j) - pcVpos sqt A s h j ^ 2 := by
  simp only [pcStepCore, if_pos h2]
  exact scatterUpd_of_mem nodup_positions
    (fun a _ b _ hab => (hbij.comp (Equiv.bijective _)).1 hab)
    (mem_positions.2 hj)

lemma pcStepCore_dg_else {n : ℕ} (sqt : K → K)
    (A : Matrix (Fin n) (Fin n) K) (s : PCState K n)
    (h : s.rows.length < n) (h2 : ¬ s.rows.length + 1 < n) :
    (pcStepCore sqt A s h).dg = s.dg := by
  simp only [pcStepCore, if_neg h2]

lemma pcStepCore_err_char {n : ℕ} (sqt : K → K)
    (A : Matrix (Fin n) (Fin n) K) (s : PCState K n)
    (h : s.rows.length < n) (h2 : s.rows.length + 1 < n) :
    (pcStepCore sqt A s h).err =
      ((positions n (s.rows.length + 1)).map
        fun j => |(pcStepCore sqt A s h).dg (pcPerm' s h j)|).sum := by
  simp only [pcStepCore, if_pos h2]

lemma pcStepCore_err_else {n : ℕ} (sqt : K → K)
    (A : Matrix (Fin n) (Fin n) K) (s : PCState K n)
    (h : s.rows.length < n) (h2 : ¬ s.rows.length + 1 < n) :
    (pcStepCore sqt A s h).err = s.err := by
  simp only [pcStepCore, if_neg h2]

/-- Residual update of one loop body: the new residual is the old one
minus the outer product of the appended row. -/
lemma pcStepCore_resid {n : ℕ} {A : Matrix (Fin n) (Fin n) K}
    {sqt : K → K} (hsqt : ∀ x : K, 0 ≤ x → sqt x * sqt x = x)
    {s : PCState K n} (hs : PCInv A s) (h : s.rows.length < n) :
    ∀ i i' : Fin n, resid A (pcStepCore sqt A s h) i i' =
      resid A s i i' -
        (resid A s (pcPiv s h) i / sqt (pcMval s h)) *
        (resid A s (pcPiv s h) i' / sqt (pcMval s h)) := by
  intro i i'
  show A i i' - gram (pcStepCore sqt A s h).rows i i' = _
  rw [pcStepCore_rows hsqt hs h, gram_append]
  show A i i' - (gram s.rows i i' + _) = _
  rw [Matrix.of_apply]
  show _ = A i i' - gram s.rows i i' - _
  ring

/-- One loop body preserves the invariant on symmetric PSD inputs. -/
lemma pcStepCore_inv {n : ℕ} {A : Matrix (Fin n) (Fin n) K}
    {sqt : K → K} (hsqt : ∀ x : K, 0 ≤ x → sqt x * sqt x = x)
    {s : PCState K n} (hs : PCInv A s) (h : s.rows.length < n) :
    PCInv A (pcStepCore sqt A s h) := by
  have hbij' : Function.Bijective (pcPerm' s h) :=
    hs.bij.comp (Equiv.bijective _)
  have hα0 : 0 ≤ pcMval s h := pcMval_nonneg hs h
  have hres := pcStepCore_resid hsqt hs h
  have hperm := pcStepCore_perm_eq sqt A s h
  have hlen := pcStepCore_len sqt A s h
  have hLF0 : ∀ j : Fin n, (j : ℕ) < s.rows.length →
      resid A s (pcPiv s h) (s.perm j) = 0 := by
    intro j hj
    rw [entry_symm hs.symm]
    exact hs.prow j hj _
  have hprow_piv : ∀ i,
      resid A (pcStepCore sqt A s h) (pcPiv s h) i = 0 := by
    intro i
    rw [hres]
    rcases sqt_cases hsqt hα0 with ⟨hpos, hne⟩ | ⟨hz, hsz⟩
    · rw [← pcMval_eq_resid hs h, div_sqt_self hsqt hα0, mul_comm,
        div_mul_cancel₀ _ hne]
      exact sub_self _
    · have hrow0 : ∀ i', resid A s (pcPiv s h) i' = 0 :=
        psd_row_zero hs.symm hs.psd
          (by rw [← pcMval_eq_resid hs h]; exact hz)
      rw [hrow0, hrow0]
      simp
  have hprow_old : ∀ j : Fin n, (j : ℕ) < s.rows.length → ∀ i,
      resid A (pcStepCore sqt A s h) (s.perm j) i = 0 := by
    intro j hj i
    rw [hres, hs.prow j hj i, hLF0 j hj]
    simp
  constructor
  · rw [hperm]
    exact hbij'
  · rw [hlen]
    omega
  · intro j hj
    rw [hlen] at hj
    rw [hperm]
    by_cases h2 : s.rows.length + 1 < n
    · rw [pcStepCore_dg_new hs.bij h h2 j hj,
        pcVpos_eq, pc_dg_pm hs h j hj, hres]
      ring
    · exact absurd (show s.rows.length + 1 < n by
        have := j.isLt; omega) h2
  · ext i i'
    rw [Matrix.transpose_apply, hres, hres, entry_symm hs.symm i' i]
    ring
  · intro x
    have hmat : resid A (pcStepCore sqt A s h) = resid A s -
        Matrix.of (fun i i' =>
          (resid A s (pcPiv s h) i / sqt (pcMval s h)) *
          (resid A s (pcPiv s h) i' / sqt (pcMval s h))) := by
      ext i i'
      rw [hres]
      rfl
    rw [hmat, Matrix.sub_mulVec, Matrix.dotProduct_sub, dotProduct_outer]
    have hdot : Matrix.dotProduct
        (fun i => resid A s (pcPiv s h) i / sqt (pcMval s h)) x =
        (resid A s).mulVec x (pcPiv s h) / sqt (pcMval s h) := by
      rw [Matrix.dotProduct]
      show _ = Matrix.dotProduct (fun i' => resid A s (pcPiv s h) i') x /
        sqt (pcMval s h)
      rw [Matrix.dotProduct, Finset.sum_div]
      exact Finset.sum_congr rfl fun i _ => div_mul_eq_mul_div _ _ _
    rw [hdot]
    rcases sqt_cases hsqt hα0 with ⟨hpos, hne⟩ | ⟨hz, hsz⟩
    · have hc := psd_cs hs.symm hs.psd (pcPiv s h) x
      rw [← pcMval_eq_resid hs h] at hc
      have hpow : ((resid A s).mulVec x (pcPiv s h) /
          sqt (pcMval s h)) ^ 2 =
          (resid A s).mulVec x (pcPiv s h) ^ 2 / pcMval s h := by
        rw [div_pow]
        congr 1
        rw [sq, hsqt _ hα0]
      rw [hpow, sub_nonneg, div_le_iff hpos]
      nlinarith [hc]
    · rw [hsz, div_zero]
      simpa using hs.psd x
  · intro j hj i
    rw [hlen] at hj
    rw [hperm]
    rcases lt_or_eq_of_le (Nat.lt_succ_iff.1 hj) with hlt | heq
    · rw [pcPerm'_lt s h j hlt]
      exact hprow_old j hlt i
    · have hje : j = ⟨s.rows.length, h⟩ := Fin.ext heq
      subst hje
      exact hprow_piv i
  · intro hlt'
    rw [hlen] at hlt'
    rw [hlen, hperm]
    exact pcStepCore_err_char sqt A s h hlt'

lemma pcStep_inv {n : ℕ} {A : Matrix (Fin n) (Fin n) K} {sqt : K → K}
    (hsqt : ∀ x : K, 0 ≤ x → sqt x * sqt x = x)
    {s : PCState K n} (hs : PCInv A s) : PCInv A (pcStep sqt A s) := by
  rw [pcStep]
  split
  · exact pcStepCore_inv hsqt hs _
  · exact hs

lemma pcRun_inv {n : ℕ} {A : Matrix (Fin n) (Fin n) K} (sqt : K → K)
    (hsqt : ∀ x : K, 0 ≤ x → sqt x * sqt x = x)
    (hsym : A.transpose = A)
    (hpsd : ∀ x : Fin n → K, 0 ≤ Matrix.dotProduct x (A.mulVec x))
    (maxIter : ℕ) (tol : K) (t : ℕ) :
    PCInv A (pcRun sqt A maxIter tol t) := by
  induction t with
  | zero => exact pcInit_inv hsym hpsd
  | succ t ih =>
    rw [pcRun_succ, pcGStep]
    split
    · exact pcStep_inv hsqt ih
    · exact ih

lemma pcGStep_len_of_guard {n : ℕ} (sqt : K → K)
    (A : Matrix (Fin n) (Fin n) K) (maxIter : ℕ) (tol : K)
    (s : PCState K n) (hmi : maxIter ≤ n)
    (hg : s.rows.length < maxIter ∧ tol < s.err) :
    (pcGStep sqt A maxIter tol s).rows.length = s.rows.length + 1 := by
  rw [pcGStep, if_pos hg, pcStep, dif_pos (lt_of_lt_of_le hg.1 hmi)]
  exact pcStepCore_len sqt A s _

lemma pcGStep_fix {n : ℕ} {sqt : K → K} {A : Matrix (Fin n) (Fin n) K}
    {maxIter : ℕ} {tol : K} {s : PCState K n}
    (hg : ¬(s.rows.length < maxIter ∧ tol < s.err)) :
    pcGStep sqt A maxIter tol s = s := by
  rw [pcGStep, if_neg hg]

/-- After `maxIter` guarded iterations (with `maxIter ≤ n`) the while
guard has failed: either all `maxIter` rows were produced or the error
fell to the tolerance. -/
lemma pcRun_final_guard {n : ℕ} (sqt : K → K)
    (A : Matrix (Fin n) (Fin n) K) (maxIter : ℕ) (tol : K)
    (hmi : maxIter ≤ n) :
    ¬((pcRun sqt A maxIter tol maxIter).rows.length < maxIter ∧
      tol < (pcRun sqt A maxIter tol maxIter).err) := by
  have key : ∀ t, t ≤ (pcRun sqt A maxIter tol t).rows.length ∨
      ¬((pcRun sqt A maxIter tol t).rows.length < maxIter ∧
        tol < (pcRun sqt A maxIter tol t).err) := by
    intro t
    induction t with
    | zero => exact Or.inl (Nat.zero_le _)
    | succ t ih =>
      by_cases hg : (pcRun sqt A maxIter tol t).rows.length < maxIter ∧
          tol < (pcRun sqt A maxIter tol t).err
      · left
        rw [pcRun_succ, pcGStep_len_of_guard sqt A maxIter tol _ hmi hg]
        rcases ih with h1 | h2
        · omega
        · exact absurd hg h2
      · right
        rw [pcRun_succ, pcGStep_fix hg]
        exact hg
  rcases key maxIter with h1 | h2
  · intro hg
    omega
  · exact h2

/-- C4 (amended): for every symmetric positive semi-definite matrix
`A` (over any ordered field, with an exact square root on the
nonnegative values encountered), `pivoted_cholesky(A, max_iter = n,
error_tol = 0)` returns a factor `L` with `LᵗL = A` directly: the
columns of `L` are already expressed in original index order, and no
permutation needs to be (or may be) applied (applying the computed
permutation's inverse to the columns breaks the identity in
general). -/
theorem pc_full_recovery {n : ℕ} (sqt : K → K)
    (hsqt : ∀ x : K, 0 ≤ x → sqt x * sqt x = x)
    (A : Matrix (Fin n) (Fin n) K) (hsym : A.transpose = A)
    (hpsd : ∀ x : Fin n → K, 0 ≤ Matrix.dotProduct x (A.mulVec x)) :
    gram (pivoted_cholesky sqt A n 0) = A := by
  have hinv : PCInv A (pcRun sqt A n 0 n) :=
    pcRun_inv sqt hsqt hsym hpsd n 0 n
  have hguard := pcRun_final_guard sqt A n 0 (le_refl n)
  have hres0 : ∀ i i', resid A (pcRun sqt A n 0 n) i i' = 0 := by
    intro i i'
    obtain ⟨j, rfl⟩ := hinv.bij.2 i
    by_cases hj : (j : ℕ) < (pcRun sqt A n 0 n).rows.length
    · exact hinv.prow j hj i'
    · push_neg at hj
      by_cases hlen : (pcRun sqt A n 0 n).rows.length < n
      · have herr : (pcRun sqt A n 0 n).err ≤ 0 := by
          by_contra hc
          push_neg at hc
          exact hguard ⟨hlen, hc⟩
        have herr_eq := hinv.err_eq hlen
        rw [positions_sum] at herr_eq
        have hterm : |(pcRun sqt A n 0 n).dg
            ((pcRun sqt A n 0 n).perm j)| ≤
            (pcRun sqt A n 0 n).err := by
          rw [herr_eq]
          exact @Finset.single_le_sum (Fin n) K _
            (fun j' => |(pcRun sqt A n 0 n).dg
              ((pcRun sqt A n 0 n).perm j')|) _
            (fun i _ => abs_nonneg _) j
            (Finset.mem_filter.2 ⟨Finset.mem_univ j, hj⟩)
        have hdg0 : (pcRun sqt A n 0 n).dg
            ((pcRun sqt A n 0 n).perm j) = 0 :=
          abs_eq_zero.1 (le_antisymm (le_trans hterm herr)
            (abs_nonneg _))
        have hdiag0 : resid A (pcRun sqt A n 0 n)
            ((pcRun sqt A n 0 n).perm j)
            ((pcRun sqt A n 0 n).perm j) = 0 := by
          rw [← hinv.dg_eq j hj]
          exact hdg0
        exact psd_row_zero hinv.symm hinv.psd hdiag0 i'
      · have := j.isLt
        omega
  have hzero : resid A (pcRun sqt A n 0 n) = 0 := by
    ext i i'
    exact hres0 i i'
  rw [resid] at hzero
  rw [pivoted_cholesky]
  simp only [min_self]
  exact (sub_eq_zero.1 hzero).symm

/-- Witness for `pc_full_recovery` at `K = ℝ`, `sqt = Real.sqrt`,
`A = [[1]]`. -/
theorem pc_full_recovery_witness :
    ((∀ x : ℝ, 0 ≤ x → Real.sqrt x * Real.sqrt x = x) ∧
      (!![(1 : ℝ)]).transpose = !![(1 : ℝ)] ∧
      (∀ x : Fin 1 → ℝ,
        0 ≤ Matrix.dotProduct x ((!![(1 : ℝ)]).mulVec x))) ∧
    gram (pivoted_cholesky Real.sqrt !![(1 : ℝ)] 1 0) = !![(1 : ℝ)] := by
  have h1 : ∀ x : ℝ, 0 ≤ x → Real.sqrt x * Real.sqrt x = x :=
    fun x hx => Real.mul_self_sqrt hx
  have h2 : (!![(1 : ℝ)]).transpose = !![(1 : ℝ)] := by
    ext i j
    fin_cases i
    fin_cases j
    rfl
  have h3 : ∀ x : Fin 1 → ℝ,
      0 ≤ Matrix.dotProduct x ((!![(1 : ℝ)]).mulVec x) := by
    intro x
    have he : Matrix.dotProduct x ((!![(1 : ℝ)]).mulVec x) =
        x 0 * x 0 := by
      simp [Matrix.dotProduct, Matrix.mulVec, Fin.sum_univ_one]
    rw [he]
    exact mul_self_nonneg _
  exact ⟨⟨h1, h2, h3⟩, pc_full_recovery Real.sqrt h1 !![(1 : ℝ)] h2 h3⟩

/-- C8 (amended): for symmetric positive semi-definite inputs the
per-batch error value computed by `pivoted_cholesky` is non-increasing
from each iteration to the next.  For arbitrary (non-PSD) inputs the
original claim is false (the error can strictly increase). -/
theorem pc_err_monotone {n : ℕ} (sqt : K → K)
    (hsqt : ∀ x : K, 0 ≤ x → sqt x * sqt x = x)
    (A : Matrix (Fin n) (Fin n) K) (hsym : A.transpose = A)
    (hpsd : ∀ x : Fin n → K, 0 ≤ Matrix.dotProduct x (A.mulVec x))
    (maxIter : ℕ) (tol : K) (t : ℕ) :
    (pcRun sqt A maxIter tol (t + 1)).err ≤
      (pcRun sqt A maxIter tol t).err := by
  have hinv : PCInv A (pcRun sqt A maxIter tol t) :=
    pcRun_inv sqt hsqt hsym hpsd maxIter tol t
  rw [pcRun_succ, pcGStep]
  split
  · rw [pcStep]
    split
    · rename_i hlt
      by_cases h2 : (pcRun sqt A maxIter tol t).rows.length + 1 < n
      · -- the deflating branch
        have hinv' := pcStepCore_inv hsqt hinv hlt
        have hperm := pcStepCore_perm_eq sqt A
          (pcRun sqt A maxIter tol t) hlt
        have hlen := pcStepCore_len sqt A
          (pcRun sqt A maxIter tol t) hlt
        rw [pcStepCore_err_char sqt A _ hlt h2, hinv.err_eq hlt,
          positions_sum, positions_sum]
        have hpoint : ∀ j ∈ Finset.univ.filter (fun j : Fin n =>
            (pcRun sqt A maxIter tol t).rows.length + 1 ≤ (j : ℕ)),
            |(pcStepCore sqt A (pcRun sqt A maxIter tol t) hlt).dg
              (pcPerm' (pcRun sqt A maxIter tol t) hlt j)| ≤
            |(pcRun sqt A maxIter tol t).dg
              (pcPerm' (pcRun sqt A maxIter tol t) hlt j)| := by
          intro j hjm
          have hj := (Finset.mem_filter.1 hjm).2
          have hdg' := @pcStepCore_dg_new K _ n A sqt _
            hinv.bij hlt h2 j hj
          have hnn : 0 ≤ (pcStepCore sqt A
              (pcRun sqt A maxIter tol t) hlt).dg
              (pcPerm' (pcRun sqt A maxIter tol t) hlt j) := by
            have hde := hinv'.dg_eq j (by rw [hlen]; exact hj)
            rw [hperm] at hde
            rw [hde]
            exact psd_diag_nonneg hinv'.psd _
          rw [abs_of_nonneg hnn, hdg']
          refine le_trans ?_ (le_abs_self _)
          have hsq0 : 0 ≤ pcVpos sqt A
            (pcRun sqt A maxIter tol t) hlt j ^ 2 := sq_nonneg _
          linarith
        refine le_trans (Finset.sum_le_sum hpoint) ?_
        -- reindex by the swap
        have hre : ∑ j ∈ Finset.univ.filter (fun j : Fin n =>
            (pcRun sqt A maxIter tol t).rows.length + 1 ≤ (j : ℕ)),
            |(pcRun sqt A maxIter tol t).dg
              (pcPerm' (pcRun sqt A maxIter tol t) hlt j)| =
            ∑ j ∈ (Finset.univ.filter (fun j : Fin n =>
              (pcRun sqt A maxIter tol t).rows.length + 1 ≤ (j : ℕ))).image
                (Equiv.swap ⟨(pcRun sqt A maxIter tol t).rows.length, hlt⟩
                  (pcMaxPos (pcRun sqt A maxIter tol t) hlt)),
            |(pcRun sqt A maxIter tol t).dg
              ((pcRun sqt A maxIter tol t).perm j)| := by
          rw [Finset.sum_image
            (fun a _ b _ hab => (Equiv.injective _) hab)]
          rfl
        rw [hre]
        refine Finset.sum_le_sum_of_subset_of_nonneg ?_
          (fun _ _ _ => abs_nonneg _)
        intro j hj
        obtain ⟨j', hj', hj'e⟩ := Finset.mem_image.1 hj
        have hj'2 := (Finset.mem_filter.1 hj').2
        refine Finset.mem_filter.2 ⟨Finset.mem_univ j, ?_⟩
        rw [← hj'e]
        exact swap_pos_ge hlt _ (pcMaxPos_ge _ hlt) j' hj'2
      · rw [pcStepCore_err_else sqt A _ hlt h2]
    · exact le_refl _
  · exact le_refl _

/-- Witness for `pc_err_monotone` at `K = ℝ`, `sqt = Real.sqrt`,
`A = [[1]]`, `max_iter = 1`, `error_tol = 0`, iteration 0 → 1. -/
theorem pc_err_monotone_witness :
    ((∀ x : ℝ, 0 ≤ x → Real.sqrt x * Real.sqrt x = x) ∧
      (!![(1 : ℝ)]).transpose = !![(1 : ℝ)] ∧
      (∀ x : Fin 1 → ℝ,
        0 ≤ Matrix.dotProduct x ((!![(1 : ℝ)]).mulVec x))) ∧
    (pcRun Real.sqrt !![(1 : ℝ)] 1 0 1).err ≤
      (pcRun Real.sqrt !![(1 : ℝ)] 1 0 0).err := by
  have h1 : ∀ x : ℝ, 0 ≤ x → Real.sqrt x * Real.sqrt x = x :=
    fun x hx => Real.mul_self_sqrt hx
  have h2 : (!![(1 : ℝ)]).transpose = !![(1 : ℝ)] := by
    ext i j
    fin_cases i
    fin_cases j
    rfl
  have h3 : ∀ x : Fin 1 → ℝ,
      0 ≤ Matrix.dotProduct x ((!![(1 : ℝ)]).mulVec x) := by
    intro x
    have he : Matrix.dotProduct x ((!![(1 : ℝ)]).mulVec x) =
        x 0 * x 0 := by
      simp [Matrix.dotProduct, Matrix.mulVec, Fin.sum_univ_one]
    rw [he]
    exact mul_self_nonneg _
  exact ⟨⟨h1, h2, h3⟩,
    pc_err_monotone Real.sqrt h1 !![(1 : ℝ)] h2 h3 1 0 0⟩

end PivotedCholeskySpec
